import Mathlib

/-!
Shallow embedding of the DXF pierce/area engine of
src/src/upload/upload.controller.ts (uploadDXF and its helpers).

Modelling conventions:
* floating-point coordinates are idealised as rationals;
* the circle branch adds Math.PI * r^2 to the running area, so the area
  accumulator is represented as a pair (rational part, coefficient of pi)
  interpreted into the reals by realArea;
* the trigonometric functions used by the ARC branch (Math.cos, Math.sin,
  Math.PI) are abstracted into a Trig record, since the engine only applies
  them to project arc endpoints;
* the string key of pointKey is represented by the pair of rounded
  coordinates (the JS template string is injective on that pair);
* JS Set adjacency (insertion ordered, deduplicating) is a deduplicated
  list, and the stable ascending Array.sort is List.insertionSort.
-/

namespace DxfSilly

/-- A 2D point with rational coordinates. -/
structure Pt where
  x : ℚ
  y : ℚ
deriving DecidableEq, Repr

/-- The summation loop of calculateArea: for each index i, add
x_i * y_(i+1 mod n) - x_(i+1 mod n) * y_i. -/
def shoelaceSum (points : List Pt) : ℚ :=
  (List.range points.length).foldl
    (fun area i =>
      let p1 := points.getD i ⟨0, 0⟩
      let p2 := points.getD ((i + 1) % points.length) ⟨0, 0⟩
      area + (p1.x * p2.y - p2.x * p1.y)) 0

/-- calculateArea: absolute value of the shoelace sum, halved. -/
def calculateArea (points : List Pt) : ℚ :=
  |shoelaceSum points| / 2

/-- roundNumber: Number(num.toFixed(6)), ties rounding upward. -/
def roundNumber (num : ℚ) : ℚ :=
  ((round (num * 1000000) : ℤ) : ℚ) / 1000000

/-- The snapped-node key: the pair of coordinates rounded to 6 decimals. -/
abbrev Key := ℚ × ℚ

/-- pointKey: the snapped key of a point. -/
def pointKey (pt : Pt) : Key :=
  (roundNumber pt.x, roundNumber pt.y)

/-- An open segment pushed onto the segments array. -/
structure Segment where
  start : Pt
  endPt : Pt
deriving DecidableEq, Repr

/-- The float trigonometry used by the ARC branch, abstracted. -/
structure Trig where
  cos : ℚ → ℚ
  sin : ℚ → ℚ
  pi : ℚ

/-- The entity variants the switch statement distinguishes. -/
inductive Entity where
  | circle (center : Pt) (radius : ℚ)
  | lwpolyline (vertices : List Pt) (closed : Bool) (shape : Bool)
  | line (startPoint endPoint : Pt)
  | arc (center : Pt) (radius startAngle endAngle : ℚ)
  | other
deriving DecidableEq, Repr

/-- Accumulator of the entity loop: independent pierce count, independent
area (rational part and pi coefficient) and the collected segments. -/
structure AccState where
  pierce : ℕ
  areaQ : ℚ
  areaPi : ℚ
  segments : List Segment
deriving Repr

/-- Projection of an angle (in degrees) onto the circle of an ARC entity:
center + radius * (cos rad, sin rad) with rad = deg * pi / 180. -/
def arcPoint (T : Trig) (center : Pt) (radius angleDeg : ℚ) : Pt :=
  let rad := angleDeg * T.pi / 180
  ⟨center.x + radius * T.cos rad, center.y + radius * T.sin rad⟩

/-- One iteration of the dxf.entities.forEach switch. -/
def normStep (T : Trig) (acc : AccState) (e : Entity) : AccState :=
  match e with
  | .circle _ radius =>
      { acc with areaPi := acc.areaPi + radius ^ 2, pierce := acc.pierce + 1 }
  | .lwpolyline vertices closed shape =>
      if closed || shape then
        { acc with
          areaQ := if 2 < vertices.length then acc.areaQ + calculateArea vertices
                   else acc.areaQ,
          pierce := acc.pierce + 1 }
      else
        { acc with pierce := acc.pierce + 2 }
  | .line p1 p2 =>
      { acc with segments := acc.segments ++ [⟨p1, p2⟩] }
  | .arc c radius a1 a2 =>
      { acc with segments :=
          acc.segments ++ [⟨arcPoint T c radius a1, arcPoint T c radius a2⟩] }
  | .other => acc

/-- The whole entity loop. -/
def normalize (T : Trig) (entities : List Entity) : AccState :=
  entities.foldl (normStep T) ⟨0, 0, 0, []⟩

/-- The state of the graph builder: the adjacency map and the map from key
to representative point, both in insertion order. -/
structure GState where
  graph : List (Key × List Key)
  pointsMap : List (Key × Pt)
deriving DecidableEq, Repr

/-- Adjacency set of a key (empty when the key is unregistered). -/
def lookupAdj (g : List (Key × List Key)) (k : Key) : List Key :=
  match g.find? (fun e => decide (e.1 = k)) with
  | some e => e.2
  | none => []

/-- Whether a key is registered in the graph. -/
def hasKey (g : List (Key × List Key)) (k : Key) : Bool :=
  g.any (fun e => decide (e.1 = k))

/-- Register a key with its representative point if it is new. -/
def registerKey (st : GState) (k : Key) (p : Pt) : GState :=
  if hasKey st.graph k then st
  else { graph := st.graph ++ [(k, [])], pointsMap := st.pointsMap ++ [(k, p)] }

/-- Set.add: append if not already present. -/
def addOnce (l : List Key) (k : Key) : List Key :=
  if k ∈ l then l else l ++ [k]

/-- graph[k].add(nb). -/
def addNeighbor (g : List (Key × List Key)) (k nb : Key) : List (Key × List Key) :=
  g.map (fun e => if e.1 = k then (e.1, addOnce e.2 nb) else e)

/-- One iteration of the segments.forEach loop. -/
def addSegment (st : GState) (seg : Segment) : GState :=
  let k1 := pointKey seg.start
  let k2 := pointKey seg.endPt
  let st1 := registerKey st k1 seg.start
  let st2 := registerKey st1 k2 seg.endPt
  { st2 with graph := addNeighbor (addNeighbor st2.graph k1 k2) k2 k1 }

/-- The graph builder over a list of segments. -/
def buildGraph (segs : List Segment) : GState :=
  segs.foldl addSegment ⟨[], []⟩

/-- Fuel that strictly dominates the number of iterations a single
stack-based traversal can make. -/
def fuelOf (g : List (Key × List Key)) : ℕ :=
  g.length + (g.map (fun e => e.2.length)).sum + 1

/-- The iterative stack-based traversal: pop, mark, push unvisited
neighbors (a JS array push/pop stack grows and shrinks at the end, so the
head of the list is the top of the stack). Returns the visited set and the
collected component. -/
def dfsLoop (g : List (Key × List Key)) :
    ℕ → List Key → List Key → List Key → List Key × List Key
  | 0, _, visited, comp => (visited, comp)
  | _ + 1, [], visited, comp => (visited, comp)
  | fuel + 1, current :: rest, visited, comp =>
      if current ∈ visited then
        dfsLoop g fuel rest visited comp
      else
        let visited1 := current :: visited
        let nbrs := (lookupAdj g current).filter (fun nb => decide (nb ∉ visited1))
        dfsLoop g fuel (nbrs.reverse ++ rest) visited1 (comp ++ [current])

/-- One iteration of the for-in loop over graph keys: skip a visited key,
or run the traversal from it and record the new component. -/
def compStep (g : List (Key × List Key)) (acc : List Key × List (List Key))
    (e : Key × List Key) : List Key × List (List Key) :=
  if e.1 ∈ acc.1 then acc
  else
    let r := dfsLoop g (fuelOf g) [e.1] acc.1 []
    (r.1, acc.2 ++ [r.2])

/-- The for-in loop over graph keys collecting connected components. -/
def componentsOf (g : List (Key × List Key)) : List (List Key) :=
  (g.foldl (compStep g) (([] : List Key), ([] : List (List Key)))).2

/-- pointsMap lookup (total, the engine only queries registered keys). -/
def lookupPt (pm : List (Key × Pt)) (k : Key) : Pt :=
  match pm.find? (fun e => decide (e.1 = k)) with
  | some e => e.2
  | none => ⟨0, 0⟩

/-- Centroid: coordinate-wise sum divided by the number of points. -/
def centroidOf (pts : List Pt) : Pt :=
  let s := pts.foldl (fun acc p => Pt.mk (acc.x + p.x) (acc.y + p.y)) ⟨0, 0⟩
  ⟨s.x / (pts.length : ℚ), s.y / (pts.length : ℚ)⟩

/-- Quadrant class of a vector, numbered in increasing order of the
two-argument arctangent of (y, x): angles in (-pi, 0), then 0, then
(0, pi), then pi. -/
def classOf (u : Pt) : ℕ :=
  if u.y < 0 then 0
  else if u.y = 0 ∧ 0 ≤ u.x then 1
  else if 0 < u.y then 2
  else 3

/-- Cross product of two vectors. -/
def cross (u v : Pt) : ℚ := u.x * v.y - u.y * v.x

/-- Executable comparison of two vectors by their two-argument arctangent:
first by quadrant class, then (within a half-plane) by cross product.
Proven below to agree with the ordering by Complex.arg. -/
def angLe (u v : Pt) : Bool :=
  if classOf u = classOf v then decide (0 ≤ cross u v)
  else decide (classOf u < classOf v)

/-- Vector from c to p. -/
def psub (p c : Pt) : Pt := ⟨p.x - c.x, p.y - c.y⟩

/-- The sorting relation of the comparator (a, b) => angleA - angleB. -/
def angLeAt (c : Pt) (p q : Pt) : Prop := angLe (psub p c) (psub q c) = true

instance (c p q : Pt) : Decidable (angLeAt c p q) := by
  unfold angLeAt; infer_instance

/-- Per-component classification and contribution of the loop detector:
(1, shoelace of the angularly sorted vertices) for closed loops with at
least 3 nodes, (2, 0) otherwise. -/
def compContribution (g : List (Key × List Key)) (pm : List (Key × Pt))
    (comp : List Key) : ℕ × ℚ :=
  let isClosed := comp.all (fun k => decide ((lookupAdj g k).length = 2))
  if isClosed ∧ 3 ≤ comp.length then
    let pts := comp.map (lookupPt pm)
    let c := centroidOf pts
    (1, calculateArea (List.insertionSort (angLeAt c) pts))
  else (2, 0)

/-- The result record: pierce count and the split area accumulator. -/
structure Result where
  pierceCount : ℕ
  areaQ : ℚ
  areaPi : ℚ
deriving DecidableEq, Repr

/-- Interpretation of the split area accumulator as a real number. -/
noncomputable def realArea (r : Result) : ℝ := (r.areaQ : ℝ) + (r.areaPi : ℝ) * Real.pi

/-- The grouped pierce/area sums over all components. -/
def groupedOf (st : GState) : ℕ × ℚ :=
  (componentsOf st.graph).foldl
    (fun gp comp =>
      let c := compContribution st.graph st.pointsMap comp
      (gp.1 + c.1, gp.2 + c.2)) (0, 0)

/-- The whole engine: entity loop, graph build, component grouping, final
sums (the conversion factor is forced to 1 and squared). -/
def uploadDXF (T : Trig) (entities : List Entity) : Result :=
  let acc := normalize T entities
  let st := buildGraph acc.segments
  let grouped := groupedOf st
  { pierceCount := acc.pierce + grouped.1,
    areaQ := (acc.areaQ + grouped.2) * 1 ^ 2,
    areaPi := acc.areaPi * 1 ^ 2 }

/-- The two-argument arctangent, defined through the argument of a complex
number: atan2 y x is the angle of the point (x, y). -/
noncomputable def atan2 (y x : ℚ) : ℝ := Complex.arg ⟨(x : ℝ), (y : ℝ)⟩

/-- Ordering of points by the two-argument arctangent of their offset from
a center point, as in the sort comparator of the loop detector. -/
noncomputable def atan2Le (c : Pt) (p q : Pt) : Prop :=
  atan2 (p.y - c.y) (p.x - c.x) ≤ atan2 (q.y - c.y) (q.x - c.x)

/-- A point as a complex number, to speak about its argument. -/
noncomputable def toC (u : Pt) : ℂ := ⟨(u.x : ℝ), (u.y : ℝ)⟩

/-- The i-th addend of the shoelace loop. -/
def shoelaceTerm (points : List Pt) (i : ℕ) : ℚ :=
  let p1 := points.getD i ⟨0, 0⟩
  let p2 := points.getD ((i + 1) % points.length) ⟨0, 0⟩
  p1.x * p2.y - p2.x * p1.y

/-- The segments a single entity pushes onto the segments array. -/
def entitySegs (T : Trig) (e : Entity) : List Segment :=
  match e with
  | .line p1 p2 => [⟨p1, p2⟩]
  | .arc c radius a1 a2 => [⟨arcPoint T c radius a1, arcPoint T c radius a2⟩]
  | _ => []

/-- Two successive invocations of the engine on the same request body. -/
def invokeTwice (T : Trig) (entities : List Entity) : Result × Result :=
  (uploadDXF T entities, uploadDXF T entities)

/-- A concrete trigonometry table used for closed evaluations. -/
def T0 : Trig := ⟨fun _ => 0, fun _ => 0, 0⟩

/-- Four line segments whose snapped endpoints form the unit square. -/
def sqSegs : List Segment :=
  [⟨⟨0, 0⟩, ⟨1, 0⟩⟩, ⟨⟨1, 0⟩, ⟨1, 1⟩⟩, ⟨⟨1, 1⟩, ⟨0, 1⟩⟩, ⟨⟨0, 1⟩, ⟨0, 0⟩⟩]

/-- The component the traversal collects for the unit square. -/
def sqComp : List Key := [(0, 0), (0, 1), (1, 1), (1, 0)]

/-- A chain of two zero-length lines joined by ordinary lines: both end
nodes are self-referential yet every adjacency set has size 2. -/
def selfLoopChain : List Entity :=
  [.line ⟨0, 0⟩ ⟨0, 0⟩, .line ⟨0, 0⟩ ⟨1, 0⟩, .line ⟨1, 0⟩ ⟨2, 0⟩,
   .line ⟨2, 0⟩ ⟨2, 0⟩]

end DxfSilly

namespace DxfSilly

/-! ### Rounding lemmas -/

theorem sub_round_lt (x : ℚ) : x - round x < 1 / 2 := by
  rw [round_eq]
  have h := Int.lt_floor_add_one (x + 1 / 2)
  push_cast at h ⊢
  linarith

theorem neg_half_le_sub_round (x : ℚ) : -(1 / 2) ≤ x - round x := by
  rw [round_eq]
  have h := Int.floor_le (x + 1 / 2)
  push_cast at h ⊢
  linarith

theorem round_ne_of_one_le {a b : ℚ} (h : 1 ≤ |a - b|) : round a ≠ round b := by
  intro he
  have h1 := sub_round_lt a
  have h2 := neg_half_le_sub_round a
  have h3 := sub_round_lt b
  have h4 := neg_half_le_sub_round b
  rw [he] at h1 h2
  rcases abs_cases (a - b) with ⟨hab, _⟩ | ⟨hab, _⟩ <;> rw [hab] at h <;> linarith

theorem roundNumber_ne_of_far {a b : ℚ} (h : 1 / 1000000 ≤ |a - b|) :
    roundNumber a ≠ roundNumber b := by
  unfold roundNumber
  intro he
  have hr : round (a * 1000000) = round (b * 1000000) := by
    field_simp at he
    exact_mod_cast he
  refine round_ne_of_one_le ?_ hr
  have habs : |a * 1000000 - b * 1000000| = |a - b| * 1000000 := by
    rw [← sub_mul, abs_mul]
    norm_num
  rw [habs]
  nlinarith [h]

/-! ### Shoelace lemmas -/

theorem foldl_add_eq (f : ℕ → ℚ) (l : List ℕ) :
    ∀ init : ℚ, l.foldl (fun a i => a + f i) init = init + (l.map f).sum := by
  induction l with
  | nil => intro init; simp
  | cons x xs ih =>
      intro init
      simp only [List.foldl_cons, List.map_cons, List.sum_cons]
      rw [ih (init + f x)]
      ring

theorem list_range_map_sum (f : ℕ → ℚ) (n : ℕ) :
    ((List.range n).map f).sum = ∑ i ∈ Finset.range n, f i := by
  induction n with
  | zero => simp
  | succ m ih =>
      rw [List.range_succ, Finset.sum_range_succ, List.map_append, List.sum_append]
      simp [ih]

theorem shoelaceSum_eq_sum (points : List Pt) :
    shoelaceSum points = ∑ i ∈ Finset.range points.length, shoelaceTerm points i := by
  have h : shoelaceSum points =
      (List.range points.length).foldl (fun a i => a + shoelaceTerm points i) 0 := rfl
  rw [h, foldl_add_eq, list_range_map_sum, zero_add]

theorem getD_reverse_of_lt (l : List Pt) (i : ℕ) (h : i < l.length) (d : Pt) :
    l.reverse.getD i d = l.getD (l.length - 1 - i) d := by
  have h1 : i < l.reverse.length := by simpa using h
  rw [List.getD_eq_getElem l.reverse d h1, List.getElem_reverse]
  have h2 : l.length - 1 - i < l.length := by omega
  rw [List.getD_eq_getElem l d h2]

theorem shoelaceSum_reverse (points : List Pt) :
    shoelaceSum points.reverse = -shoelaceSum points := by
  cases points with
  | nil => simp [shoelaceSum]
  | cons p ps =>
    have hlen : (p :: ps).length = ps.length + 1 := by simp
    have hrlen : (p :: ps).reverse.length = ps.length + 1 := by simp
    rw [shoelaceSum_eq_sum, shoelaceSum_eq_sum, hlen, hrlen]
    rw [Finset.sum_range_succ, Finset.sum_range_succ]
    have hterm_last :
        shoelaceTerm (p :: ps).reverse ps.length = -shoelaceTerm (p :: ps) ps.length := by
      unfold shoelaceTerm
      rw [hrlen, hlen]
      simp only [Nat.mod_self]
      rw [getD_reverse_of_lt (p :: ps) ps.length (by simp),
        getD_reverse_of_lt (p :: ps) 0 (by simp), hlen]
      have e1 : ps.length + 1 - 1 - ps.length = 0 := by omega
      have e2 : ps.length + 1 - 1 - 0 = ps.length := by omega
      rw [e1, e2]
      ring
    have hsum : ∑ i ∈ Finset.range ps.length, shoelaceTerm (p :: ps).reverse i
        = ∑ i ∈ Finset.range ps.length, -shoelaceTerm (p :: ps) i := by
      have h1 : ∀ i ∈ Finset.range ps.length,
          shoelaceTerm (p :: ps).reverse i
            = (fun j => -shoelaceTerm (p :: ps) j) (ps.length - 1 - i) := by
        intro i hi
        rw [Finset.mem_range] at hi
        show shoelaceTerm (p :: ps).reverse i = -shoelaceTerm (p :: ps) (ps.length - 1 - i)
        unfold shoelaceTerm
        rw [hrlen, hlen]
        have e1 : (i + 1) % (ps.length + 1) = i + 1 := Nat.mod_eq_of_lt (by omega)
        have e2 : (ps.length - 1 - i + 1) % (ps.length + 1) = ps.length - 1 - i + 1 :=
          Nat.mod_eq_of_lt (by omega)
        rw [e1, e2]
        rw [getD_reverse_of_lt (p :: ps) i (by simp; omega),
          getD_reverse_of_lt (p :: ps) (i + 1) (by simp; omega), hlen]
        have e3 : ps.length + 1 - 1 - i = ps.length - 1 - i + 1 := by omega
        have e4 : ps.length + 1 - 1 - (i + 1) = ps.length - 1 - i := by omega
        rw [e3, e4]
        ring
      rw [Finset.sum_congr rfl h1,
        Finset.sum_range_reflect (fun j => -shoelaceTerm (p :: ps) j) ps.length]
    rw [hterm_last, hsum, Finset.sum_neg_distrib]
    ring

/-! ### Claim C7 -/

/-- C7: for every list of points the shoelace area function returns a
non-negative value, and reversing the vertex order returns the same area. -/
theorem c7_shoelace_nonneg_orientation (points : List Pt) :
    0 ≤ calculateArea points ∧ calculateArea points.reverse = calculateArea points := by
  constructor
  · unfold calculateArea
    positivity
  · unfold calculateArea
    rw [shoelaceSum_reverse, abs_neg]

/-! ### Claim C9 -/

/-- C9: the engine is deterministic: invoking it twice on identical input
produces identical results, since the model shares no state between the
two invocations. -/
theorem c9_deterministic (T : Trig) (entities : List Entity) :
    (invokeTwice T entities).1 = (invokeTwice T entities).2 := rfl

/-! ### Claim C5 -/

/-- C5: a polyline marked closed-or-shaped contributes one pierce, plus its
shoelace area exactly when it has more than 2 vertices; a polyline not
marked closed contributes two pierces, zero area; in every case the
segment list (and hence the graph) is untouched. -/
theorem c5_polyline_contribution (T : Trig) (acc : AccState) (vertices : List Pt)
    (closed shape : Bool) :
    normStep T acc (.lwpolyline vertices closed shape) =
      { acc with
        pierce := acc.pierce + (if closed || shape then 1 else 2),
        areaQ := acc.areaQ +
          (if (closed || shape) = true ∧ 2 < vertices.length then calculateArea vertices
           else 0) } := by
  by_cases h : (closed || shape) = true
  · by_cases h2 : 2 < vertices.length
    · simp [normStep, h, h2]
    · simp [normStep, h, h2]
  · simp [normStep, h]

/-! ### Claim C4 -/

/-- C4 as frozen is false: these two points differ only by 1e-9 in the x
coordinate (and not at all in y), yet they snap to distinct nodes, because
the 1e-9 difference crosses a rounding boundary of the 6-decimal grid. -/
theorem c4_counterexample :
    ((5005 / 10000000000 : ℚ) - 4995 / 10000000000 = 1 / 1000000000 ∧
      (0 : ℚ) = 0) ∧
    pointKey ⟨4995 / 10000000000, 0⟩ ≠ pointKey ⟨5005 / 10000000000, 0⟩ := by
  constructor
  · constructor
    · norm_num
    · rfl
  · with_unfolding_all decide

/-- C4 (amended): two endpoints map to the same snapped node if and only
if rounding each coordinate to 6 decimal places yields identical values;
two endpoints one of whose coordinates differs by at least the precision
threshold 1e-6 remain distinct nodes; and the concrete endpoints (0, 0)
and (1e-9, 0), which differ only by 1e-9, become one node. -/
theorem c4_snapping_amended (p q : Pt) :
    (pointKey p = pointKey q ↔
      (roundNumber p.x = roundNumber q.x ∧ roundNumber p.y = roundNumber q.y)) ∧
    ((1 / 1000000 ≤ |p.x - q.x| ∨ 1 / 1000000 ≤ |p.y - q.y|) →
      pointKey p ≠ pointKey q) ∧
    pointKey ⟨0, 0⟩ = pointKey ⟨1 / 1000000000, 0⟩ := by
  refine ⟨?_, ?_, by with_unfolding_all decide⟩
  · unfold pointKey
    constructor
    · intro h
      exact ⟨congrArg Prod.fst h, congrArg Prod.snd h⟩
    · intro h
      rw [h.1, h.2]
  · intro h he
    unfold pointKey at he
    have hx := congrArg Prod.fst he
    have hy := congrArg Prod.snd he
    simp only at hx hy
    rcases h with h | h
    · exact roundNumber_ne_of_far h hx
    · exact roundNumber_ne_of_far h hy

/-- Closed instance of the amended C4: the theorem applied to two concrete
endpoints a full unit apart, which stay distinct. -/
theorem c4_snapping_witness :
    pointKey ⟨0, 0⟩ ≠ pointKey ⟨1, 0⟩ :=
  (c4_snapping_amended ⟨0, 0⟩ ⟨1, 0⟩).2.1 (Or.inl (by norm_num))


/-! ### Graph builder lemmas -/

theorem lookupAdj_cons (e : Key × List Key) (g : List (Key × List Key)) (k : Key) :
    lookupAdj (e :: g) k = if e.1 = k then e.2 else lookupAdj g k := by
  by_cases h : e.1 = k
  · simp [lookupAdj, List.find?_cons, h]
  · simp [lookupAdj, List.find?_cons, h]

theorem hasKey_iff (g : List (Key × List Key)) (k : Key) :
    hasKey g k = true ↔ k ∈ g.map Prod.fst := by
  unfold hasKey
  simp [List.any_eq_true, List.mem_map]

theorem lookupAdj_of_not_hasKey {g : List (Key × List Key)} {k : Key}
    (h : hasKey g k = false) : lookupAdj g k = [] := by
  unfold hasKey at h
  unfold lookupAdj
  have hf : g.find? (fun e => decide (e.1 = k)) = none := by
    rw [List.find?_eq_none]
    intro e he
    have := (List.any_eq_false.mp h) e he
    simpa using this
  rw [hf]

theorem mem_addOnce (l : List Key) (a b : Key) : a ∈ addOnce l b ↔ a ∈ l ∨ a = b := by
  unfold addOnce
  split_ifs with h
  · constructor
    · exact Or.inl
    · rintro (h2 | rfl)
      · exact h2
      · exact h
  · simp [List.mem_append]

theorem addOnce_of_mem {l : List Key} {b : Key} (h : b ∈ l) : addOnce l b = l := by
  unfold addOnce
  simp [h]

theorem addNeighbor_entry (e : Key × List Key) (k nb : Key) :
    (if e.1 = k then (e.1, addOnce e.2 nb) else e) =
      (e.1, if e.1 = k then addOnce e.2 nb else e.2) := by
  split_ifs <;> rfl

theorem lookupAdj_addNeighbor (g : List (Key × List Key)) (k nb k2 : Key) :
    lookupAdj (addNeighbor g k nb) k2 =
      if k2 = k ∧ hasKey g k2 = true then addOnce (lookupAdj g k2) nb
      else lookupAdj g k2 := by
  induction g with
  | nil => simp [addNeighbor, lookupAdj, hasKey]
  | cons e g ih =>
      unfold addNeighbor
      simp only [List.map_cons]
      rw [addNeighbor_entry]
      show lookupAdj ((e.1, if e.1 = k then addOnce e.2 nb else e.2) :: addNeighbor g k nb) k2 = _
      rw [lookupAdj_cons, lookupAdj_cons]
      by_cases h1 : e.1 = k2
      · have hk : hasKey (e :: g) k2 = true := by
          rw [hasKey_iff]
          simp [← h1]
        by_cases h2 : k2 = k
        · rw [if_pos h1, if_pos h1, if_pos (h1.trans h2), if_pos ⟨h2, hk⟩]
        · rw [if_pos h1, if_pos h1,
            if_neg (fun hc : e.1 = k => h2 (h1 ▸ hc)),
            if_neg (fun hc : k2 = k ∧ _ => h2 hc.1)]
      · have hk : hasKey (e :: g) k2 = hasKey g k2 := by
          unfold hasKey
          simp [List.any_cons, h1]
        rw [if_neg h1, if_neg h1, ih, hk]

theorem hasKey_addNeighbor (g : List (Key × List Key)) (k nb k2 : Key) :
    hasKey (addNeighbor g k nb) k2 = hasKey g k2 := by
  unfold hasKey addNeighbor
  rw [List.any_map]
  congr 1
  funext e
  rw [Function.comp_apply, addNeighbor_entry]

theorem keys_addNeighbor (g : List (Key × List Key)) (k nb : Key) :
    (addNeighbor g k nb).map Prod.fst = g.map Prod.fst := by
  unfold addNeighbor
  rw [List.map_map]
  congr 1
  funext e
  rw [Function.comp_apply, addNeighbor_entry]

theorem graph_registerKey (st : GState) (k : Key) (p : Pt) :
    (registerKey st k p).graph =
      if hasKey st.graph k then st.graph else st.graph ++ [(k, [])] := by
  unfold registerKey
  split_ifs <;> rfl

theorem lookupAdj_registerKey (st : GState) (k : Key) (p : Pt) (k2 : Key) :
    lookupAdj (registerKey st k p).graph k2 = lookupAdj st.graph k2 := by
  rw [graph_registerKey]
  split_ifs with h
  · rfl
  · unfold lookupAdj
    rw [List.find?_append]
    cases hf : st.graph.find? (fun e => decide (e.1 = k2)) with
    | some e => rfl
    | none =>
        by_cases hk : k = k2
        · simp [List.find?_cons, hk]
        · simp [List.find?_cons, hk]

theorem hasKey_registerKey_self (st : GState) (k : Key) (p : Pt) :
    hasKey (registerKey st k p).graph k = true := by
  rw [graph_registerKey]
  split_ifs with h
  · exact h
  · unfold hasKey
    simp [List.any_append]

theorem hasKey_registerKey_mono (st : GState) (k : Key) (p : Pt) {k2 : Key}
    (h : hasKey st.graph k2 = true) : hasKey (registerKey st k p).graph k2 = true := by
  rw [graph_registerKey]
  split_ifs with h2
  · exact h
  · unfold hasKey at *
    simp [List.any_append, h]

theorem registerKey_of_present {st : GState} {k : Key} (p : Pt)
    (h : hasKey st.graph k = true) : registerKey st k p = st := by
  unfold registerKey
  simp [h]


theorem hasKey_of_mem_lookupAdj {g : List (Key × List Key)} {k nb : Key}
    (h : nb ∈ lookupAdj g k) : hasKey g k = true := by
  by_cases hk : hasKey g k = true
  · exact hk
  · rw [lookupAdj_of_not_hasKey (Bool.eq_false_iff.mpr hk)] at h
    simp at h

theorem mem_lookupAdj_addSegment (st : GState) (seg : Segment) (k nb : Key) :
    nb ∈ lookupAdj (addSegment st seg).graph k ↔
      nb ∈ lookupAdj st.graph k ∨
      (k = pointKey seg.start ∧ nb = pointKey seg.endPt) ∨
      (k = pointKey seg.endPt ∧ nb = pointKey seg.start) := by
  unfold addSegment
  have hadj : ∀ k3, lookupAdj
      (registerKey (registerKey st (pointKey seg.start) seg.start)
        (pointKey seg.endPt) seg.endPt).graph k3 = lookupAdj st.graph k3 := by
    intro k3
    rw [lookupAdj_registerKey, lookupAdj_registerKey]
  have hk1 : hasKey (registerKey (registerKey st (pointKey seg.start) seg.start)
      (pointKey seg.endPt) seg.endPt).graph (pointKey seg.start) = true :=
    hasKey_registerKey_mono _ _ _ (hasKey_registerKey_self _ _ _)
  have hk2 : hasKey (registerKey (registerKey st (pointKey seg.start) seg.start)
      (pointKey seg.endPt) seg.endPt).graph (pointKey seg.endPt) = true :=
    hasKey_registerKey_self _ _ _
  show nb ∈ lookupAdj (addNeighbor (addNeighbor _ _ _) _ _) k ↔ _
  rw [lookupAdj_addNeighbor, hasKey_addNeighbor, lookupAdj_addNeighbor]
  by_cases h2 : k = pointKey seg.endPt
  · rw [if_pos ⟨h2, h2 ▸ hk2⟩]
    by_cases h1 : k = pointKey seg.start
    · rw [if_pos ⟨h1, h1 ▸ hk1⟩]
      rw [mem_addOnce, mem_addOnce, hadj]
      tauto
    · rw [if_neg (fun hc : k = pointKey seg.start ∧ _ => h1 hc.1)]
      rw [mem_addOnce, hadj]
      tauto
  · rw [if_neg (fun hc : k = pointKey seg.endPt ∧ _ => h2 hc.1)]
    by_cases h1 : k = pointKey seg.start
    · rw [if_pos ⟨h1, h1 ▸ hk1⟩]
      rw [mem_addOnce, hadj]
      tauto
    · rw [if_neg (fun hc : k = pointKey seg.start ∧ _ => h1 hc.1)]
      rw [hadj]
      tauto

theorem mem_lookupAdj_foldl (segs : List Segment) :
    ∀ (st : GState) (k nb : Key),
      nb ∈ lookupAdj (segs.foldl addSegment st).graph k ↔
        nb ∈ lookupAdj st.graph k ∨
        ∃ s ∈ segs, (k = pointKey s.start ∧ nb = pointKey s.endPt) ∨
          (k = pointKey s.endPt ∧ nb = pointKey s.start) := by
  induction segs with
  | nil => intro st k nb; simp
  | cons s rest ih =>
      intro st k nb
      simp only [List.foldl_cons]
      rw [ih, mem_lookupAdj_addSegment]
      simp only [List.mem_cons]
      constructor
      · rintro ((h | (h | h)) | ⟨t, ht, h⟩)
        · exact Or.inl h
        · exact Or.inr ⟨s, Or.inl rfl, Or.inl h⟩
        · exact Or.inr ⟨s, Or.inl rfl, Or.inr h⟩
        · exact Or.inr ⟨t, Or.inr ht, h⟩
      · rintro (h | ⟨t, (rfl | ht), h⟩)
        · exact Or.inl (Or.inl h)
        · rcases h with h | h
          · exact Or.inl (Or.inr (Or.inl h))
          · exact Or.inl (Or.inr (Or.inr h))
        · exact Or.inr ⟨t, ht, h⟩

theorem mem_lookupAdj_buildGraph (segs : List Segment) (k nb : Key) :
    nb ∈ lookupAdj (buildGraph segs).graph k ↔
      ∃ s ∈ segs, (k = pointKey s.start ∧ nb = pointKey s.endPt) ∨
        (k = pointKey s.endPt ∧ nb = pointKey s.start) := by
  unfold buildGraph
  rw [mem_lookupAdj_foldl]
  show nb ∈ lookupAdj [] k ∨ _ ↔ _
  simp [lookupAdj]

theorem nodup_keys_registerKey (st : GState) (k : Key) (p : Pt)
    (h : (st.graph.map Prod.fst).Nodup) :
    ((registerKey st k p).graph.map Prod.fst).Nodup := by
  rw [graph_registerKey]
  split_ifs with hk
  · exact h
  · rw [List.map_append]
    rw [List.nodup_append]
    refine ⟨h, by simp, ?_⟩
    intro a ha hb
    simp at hb
    subst hb
    exact (Bool.eq_false_iff.mp (Bool.not_eq_true _ ▸ (by simpa using hk))) ((hasKey_iff _ _).mpr ha)

theorem nodup_keys_addSegment (st : GState) (seg : Segment)
    (h : (st.graph.map Prod.fst).Nodup) :
    ((addSegment st seg).graph.map Prod.fst).Nodup := by
  unfold addSegment
  show ((addNeighbor (addNeighbor _ _ _) _ _).map Prod.fst).Nodup
  rw [keys_addNeighbor, keys_addNeighbor]
  exact nodup_keys_registerKey _ _ _ (nodup_keys_registerKey _ _ _ h)

theorem nodup_keys_buildGraph (segs : List Segment) :
    ((buildGraph segs).graph.map Prod.fst).Nodup := by
  unfold buildGraph
  have h : ∀ (st : GState), (st.graph.map Prod.fst).Nodup →
      ((segs.foldl addSegment st).graph.map Prod.fst).Nodup := by
    induction segs with
    | nil => intro st h; exact h
    | cons s rest ih =>
        intro st h
        exact ih _ (nodup_keys_addSegment _ _ h)
  exact h ⟨[], []⟩ (by simp)

theorem lookupAdj_of_mem_nodup {g : List (Key × List Key)} {e : Key × List Key}
    (he : e ∈ g) (hnd : (g.map Prod.fst).Nodup) : lookupAdj g e.1 = e.2 := by
  induction g with
  | nil => simp at he
  | cons f g ih =>
      rw [lookupAdj_cons]
      rcases List.mem_cons.mp he with rfl | he2
      · rw [if_pos rfl]
      · have hne : f.1 ≠ e.1 := by
          intro hc
          have : e.1 ∈ g.map Prod.fst := List.mem_map.mpr ⟨e, he2, rfl⟩
          rw [List.map_cons, List.nodup_cons] at hnd
          exact hnd.1 (hc ▸ this)
        rw [if_neg hne]
        exact ih he2 (by rw [List.map_cons, List.nodup_cons] at hnd; exact hnd.2)

theorem addNeighbor_of_present {g : List (Key × List Key)} {k nb : Key}
    (hnd : (g.map Prod.fst).Nodup) (h : nb ∈ lookupAdj g k) :
    addNeighbor g k nb = g := by
  unfold addNeighbor
  have : ∀ e ∈ g, (if e.1 = k then (e.1, addOnce e.2 nb) else e) = e := by
    intro e he
    split_ifs with hek
    · have he2 : e.2 = lookupAdj g k := by
        rw [← hek]
        exact (lookupAdj_of_mem_nodup he hnd).symm
      rw [he2, addOnce_of_mem h, ← he2]
    · rfl
  calc g.map (fun e => if e.1 = k then (e.1, addOnce e.2 nb) else e)
      = g.map id := List.map_congr_left this
    _ = g := List.map_id g

theorem addSegment_of_present {st : GState} {seg : Segment}
    (hnd : (st.graph.map Prod.fst).Nodup)
    (h1 : pointKey seg.endPt ∈ lookupAdj st.graph (pointKey seg.start))
    (h2 : pointKey seg.start ∈ lookupAdj st.graph (pointKey seg.endPt)) :
    addSegment st seg = st := by
  simp only [addSegment]
  rw [registerKey_of_present seg.start (hasKey_of_mem_lookupAdj h1),
    registerKey_of_present seg.endPt (hasKey_of_mem_lookupAdj h2),
    addNeighbor_of_present hnd h1, addNeighbor_of_present hnd h2]

/-! ### Claim C6 -/

/-- C6: the endpoint graph is symmetric (B is adjacent to A exactly when A
is adjacent to B), and a list containing a duplicate of an earlier segment
between the same two snapped nodes builds the same graph state as the list
without the duplicate. -/
theorem c6_symmetric_dedup :
    (∀ (segs : List Segment) (k nb : Key),
      nb ∈ lookupAdj (buildGraph segs).graph k ↔
        k ∈ lookupAdj (buildGraph segs).graph nb) ∧
    (∀ (l1 l2 : List Segment) (t : Segment),
      (∃ s ∈ l1,
        (pointKey s.start = pointKey t.start ∧ pointKey s.endPt = pointKey t.endPt) ∨
        (pointKey s.start = pointKey t.endPt ∧ pointKey s.endPt = pointKey t.start)) →
      buildGraph (l1 ++ t :: l2) = buildGraph (l1 ++ l2)) := by
  constructor
  · intro segs k nb
    rw [mem_lookupAdj_buildGraph, mem_lookupAdj_buildGraph]
    constructor
    · rintro ⟨s, hs, h⟩
      exact ⟨s, hs, by tauto⟩
    · rintro ⟨s, hs, h⟩
      exact ⟨s, hs, by tauto⟩
  · rintro l1 l2 t ⟨s, hs, hor⟩
    unfold buildGraph
    rw [List.foldl_append, List.foldl_append, List.foldl_cons]
    have h1 : pointKey t.endPt ∈ lookupAdj (buildGraph l1).graph (pointKey t.start) := by
      rw [mem_lookupAdj_buildGraph]
      exact ⟨s, hs, by tauto⟩
    have h2 : pointKey t.start ∈ lookupAdj (buildGraph l1).graph (pointKey t.endPt) := by
      rw [mem_lookupAdj_buildGraph]
      exact ⟨s, hs, by tauto⟩
    rw [show List.foldl addSegment ⟨[], []⟩ l1 = buildGraph l1 from rfl,
      addSegment_of_present (nodup_keys_buildGraph l1) h1 h2]

/-- Closed instance of C6 dedup: a duplicated segment between the snapped
nodes (0,0) and (1,0) leaves the graph state unchanged. -/
theorem c6_symmetric_dedup_witness :
    buildGraph [⟨⟨0, 0⟩, ⟨1, 0⟩⟩, ⟨⟨0, 0⟩, ⟨1, 0⟩⟩] = buildGraph [⟨⟨0, 0⟩, ⟨1, 0⟩⟩] :=
  c6_symmetric_dedup.2 [⟨⟨0, 0⟩, ⟨1, 0⟩⟩] [] ⟨⟨0, 0⟩, ⟨1, 0⟩⟩
    ⟨⟨⟨0, 0⟩, ⟨1, 0⟩⟩, List.mem_singleton.mpr rfl, Or.inl ⟨rfl, rfl⟩⟩


/-! ### Traversal lemmas -/

theorem dfsLoop_empty_stack (g : List (Key × List Key)) (fuel : ℕ)
    (visited comp : List Key) : dfsLoop g fuel [] visited comp = (visited, comp) := by
  cases fuel <;> rfl

theorem dfsLoop_structure (g : List (Key × List Key)) :
    ∀ (fuel : ℕ) (stack visited comp : List Key),
      ∃ newly : List Key,
        (dfsLoop g fuel stack visited comp).1 = newly.reverse ++ visited ∧
        (dfsLoop g fuel stack visited comp).2 = comp ++ newly ∧
        newly.Nodup ∧ ∀ x ∈ newly, x ∉ visited := by
  intro fuel
  induction fuel with
  | zero =>
      intro stack visited comp
      exact ⟨[], by simp [dfsLoop], by simp [dfsLoop], by simp, by simp⟩
  | succ f ih =>
      intro stack visited comp
      cases stack with
      | nil => exact ⟨[], by simp [dfsLoop], by simp [dfsLoop], by simp, by simp⟩
      | cons current rest =>
          by_cases hv : current ∈ visited
          · have heq : dfsLoop g (f + 1) (current :: rest) visited comp =
                dfsLoop g f rest visited comp := by
              simp [dfsLoop, hv]
            rw [heq]
            exact ih rest visited comp
          · have heq : dfsLoop g (f + 1) (current :: rest) visited comp =
                dfsLoop g f
                  (((lookupAdj g current).filter
                    (fun nb => decide (nb ∉ current :: visited))).reverse ++ rest)
                  (current :: visited) (comp ++ [current]) := by
              simp [dfsLoop, hv]
            rw [heq]
            obtain ⟨newly, h1, h2, h3, h4⟩ := ih
              (((lookupAdj g current).filter
                (fun nb => decide (nb ∉ current :: visited))).reverse ++ rest)
              (current :: visited) (comp ++ [current])
            refine ⟨current :: newly, ?_, ?_, ?_, ?_⟩
            · rw [h1]
              simp
            · rw [h2]
              simp
            · exact List.nodup_cons.mpr
                ⟨fun hc => (h4 current hc) (List.mem_cons_self _ _), h3⟩
            · intro x hx
              rcases List.mem_cons.mp hx with rfl | hx2
              · exact hv
              · exact fun hc => h4 x hx2 (List.mem_cons_of_mem _ hc)

theorem dfsLoop_visited_mono {g : List (Key × List Key)} {fuel : ℕ}
    {stack visited comp : List Key} {x : Key} (h : x ∈ visited) :
    x ∈ (dfsLoop g fuel stack visited comp).1 := by
  obtain ⟨newly, h1, _, _, _⟩ := dfsLoop_structure g fuel stack visited comp
  rw [h1]
  exact List.mem_append_right _ h

theorem compStep_invariant (g : List (Key × List Key))
    (acc : List Key × List (List Key)) (e : Key × List Key)
    (h1 : acc.1 = acc.2.flatten.reverse) (h2 : acc.2.flatten.Nodup) :
    (compStep g acc e).1 = (compStep g acc e).2.flatten.reverse ∧
    (compStep g acc e).2.flatten.Nodup := by
  unfold compStep
  split_ifs with he
  · exact ⟨h1, h2⟩
  · obtain ⟨newly, hv, hc, hnd, hfresh⟩ :=
      dfsLoop_structure g (fuelOf g) [e.1] acc.1 []
    constructor
    · show (dfsLoop g (fuelOf g) [e.1] acc.1 []).1 =
        (acc.2 ++ [(dfsLoop g (fuelOf g) [e.1] acc.1 []).2]).flatten.reverse
      rw [hv, hc, h1]
      simp
    · show (acc.2 ++ [(dfsLoop g (fuelOf g) [e.1] acc.1 []).2]).flatten.Nodup
      rw [hc, List.flatten_append]
      simp only [List.nil_append, List.flatten_cons, List.flatten_nil, List.append_nil]
      refine List.Nodup.append h2 hnd ?_
      rw [List.disjoint_left]
      intro a ha hb
      apply hfresh a hb
      rw [h1]
      exact List.mem_reverse.mpr ha

theorem foldl_compStep_invariant (g : List (Key × List Key))
    (entries : List (Key × List Key)) :
    ∀ acc : List Key × List (List Key),
      acc.1 = acc.2.flatten.reverse → acc.2.flatten.Nodup →
      (entries.foldl (compStep g) acc).1 =
          (entries.foldl (compStep g) acc).2.flatten.reverse ∧
        (entries.foldl (compStep g) acc).2.flatten.Nodup := by
  induction entries with
  | nil => intro acc h1 h2; exact ⟨h1, h2⟩
  | cons e rest ih =>
      intro acc h1 h2
      simp only [List.foldl_cons]
      obtain ⟨j1, j2⟩ := compStep_invariant g acc e h1 h2
      exact ih _ j1 j2

theorem compStep_visits_self (g : List (Key × List Key))
    (acc : List Key × List (List Key)) (e : Key × List Key) :
    e.1 ∈ (compStep g acc e).1 := by
  unfold compStep
  split_ifs with he
  · exact he
  · show e.1 ∈ (dfsLoop g (fuelOf g) [e.1] acc.1 []).1
    show e.1 ∈ (dfsLoop g ((g.length + (g.map (fun e => e.2.length)).sum) + 1)
      [e.1] acc.1 []).1
    rw [show dfsLoop g ((g.length + (g.map (fun e => e.2.length)).sum) + 1)
        [e.1] acc.1 [] =
      if e.1 ∈ acc.1 then
        dfsLoop g (g.length + (g.map (fun e => e.2.length)).sum) [] acc.1 []
      else
        dfsLoop g (g.length + (g.map (fun e => e.2.length)).sum)
          (((lookupAdj g e.1).filter
            (fun nb => decide (nb ∉ e.1 :: acc.1))).reverse ++ [])
          (e.1 :: acc.1) ([] ++ [e.1]) from rfl]
    rw [if_neg he]
    exact dfsLoop_visited_mono (List.mem_cons_self _ _)

theorem compStep_visited_mono (g : List (Key × List Key))
    (acc : List Key × List (List Key)) (e : Key × List Key) {x : Key}
    (h : x ∈ acc.1) : x ∈ (compStep g acc e).1 := by
  unfold compStep
  split_ifs with he
  · exact h
  · exact dfsLoop_visited_mono h

theorem foldl_compStep_visited_mono (g : List (Key × List Key))
    (entries : List (Key × List Key)) :
    ∀ (acc : List Key × List (List Key)) (x : Key),
      x ∈ acc.1 → x ∈ (entries.foldl (compStep g) acc).1 := by
  induction entries with
  | nil => intro acc x h; exact h
  | cons e rest ih =>
      intro acc x h
      simp only [List.foldl_cons]
      exact ih _ x (compStep_visited_mono g acc e h)

theorem foldl_compStep_covers (g : List (Key × List Key))
    (entries : List (Key × List Key)) :
    ∀ acc : List Key × List (List Key),
      ∀ e ∈ entries, e.1 ∈ (entries.foldl (compStep g) acc).1 := by
  induction entries with
  | nil => intro acc e he; simp at he
  | cons f rest ih =>
      intro acc e he
      simp only [List.foldl_cons]
      rcases List.mem_cons.mp he with rfl | he2
      · exact foldl_compStep_visited_mono g rest _ e.1 (compStep_visits_self g acc e)
      · exact ih _ e he2

/-! ### Claim C8 -/

/-- C8: for every input the traversal of the engine graph visits each node
at most once and misses none: the concatenation of all components has no
duplicate node, and every key of the graph appears in some component. The
engine is a total Lean function, so it returns a result on every input,
including degenerate zero-length segments. -/
theorem c8_traversal_total (T : Trig) (entities : List Entity) :
    ((componentsOf (buildGraph (normalize T entities).segments).graph).flatten.Nodup ∧
      ∀ e ∈ (buildGraph (normalize T entities).segments).graph,
        e.1 ∈ (componentsOf (buildGraph (normalize T entities).segments).graph).flatten) := by
  constructor
  · exact (foldl_compStep_invariant _ _ ([], []) (by simp) (by simp)).2
  · intro e he
    have h1 := foldl_compStep_covers
      (buildGraph (normalize T entities).segments).graph
      (buildGraph (normalize T entities).segments).graph ([], []) e he
    have h2 := (foldl_compStep_invariant
      (buildGraph (normalize T entities).segments).graph
      (buildGraph (normalize T entities).segments).graph ([], [])
      (by simp) (by simp)).1
    rw [h2] at h1
    exact List.mem_reverse.mp h1

/-- Closed instance of C8 on the self-loop chain input: the node (0,0)
appears among the collected components. -/
theorem c8_traversal_total_witness :
    (((0 : ℚ), (0 : ℚ)), [((0 : ℚ), (0 : ℚ)), ((1 : ℚ), (0 : ℚ))]) ∈
        (buildGraph (normalize T0 selfLoopChain).segments).graph ∧
    ((0 : ℚ), (0 : ℚ)) ∈
      (componentsOf (buildGraph (normalize T0 selfLoopChain).segments).graph).flatten := by
  constructor
  · with_unfolding_all decide
  · exact (c8_traversal_total T0 selfLoopChain).2
      ((((0 : ℚ), (0 : ℚ))), [((0 : ℚ), (0 : ℚ)), ((1 : ℚ), (0 : ℚ))])
      (by with_unfolding_all decide)


/-! ### Claim C2 -/

set_option maxRecDepth 100000 in
/-- C2 contradicts the code: on this input two zero-length lines (whose
nodes are self-referential) are joined by ordinary lines, every adjacency
set in the component has size 2 and the component has 3 nodes, so the loop
detector classifies it as a closed loop: the engine returns pierceCount 1
and area 0, while the specification requires pierceCount 2 for any
component containing a self-referential node. The second conjunct exhibits
the self-referential node. -/
theorem c2_self_loop_code_eval :
    uploadDXF T0 selfLoopChain = ⟨1, 0, 0⟩ ∧
    ((0 : ℚ), (0 : ℚ)) ∈ lookupAdj
      (buildGraph (normalize T0 selfLoopChain).segments).graph ((0 : ℚ), (0 : ℚ)) := by
  with_unfolding_all decide

/-! ### Entity segment lemmas -/

theorem normStep_segments (T : Trig) (acc : AccState) (e : Entity) :
    (normStep T acc e).segments = acc.segments ++ entitySegs T e := by
  cases e with
  | circle c r => simp [normStep, entitySegs]
  | lwpolyline vs cl sh =>
      simp only [normStep, entitySegs]
      split_ifs <;> simp
  | line p1 p2 => simp [normStep, entitySegs]
  | arc c r a1 a2 => simp [normStep, entitySegs]
  | other => simp [normStep, entitySegs]

theorem normalize_segments_append (T : Trig) (es : List Entity) :
    ∀ acc : AccState, (es.foldl (normStep T) acc).segments =
      acc.segments ++ (es.map (entitySegs T)).flatten := by
  induction es with
  | nil => intro acc; simp
  | cons e rest ih =>
      intro acc
      simp only [List.foldl_cons, List.map_cons, List.flatten_cons]
      rw [ih, normStep_segments, List.append_assoc]

theorem normalize_segments (T : Trig) (es : List Entity) :
    (normalize T es).segments = (es.map (entitySegs T)).flatten := by
  unfold normalize
  rw [normalize_segments_append]
  rfl

/-! ### Key membership lemmas -/

theorem hasKey_registerKey_iff (st : GState) (k : Key) (p : Pt) (k2 : Key) :
    hasKey (registerKey st k p).graph k2 = true ↔
      hasKey st.graph k2 = true ∨ k2 = k := by
  rw [graph_registerKey]
  split_ifs with h
  · constructor
    · exact Or.inl
    · rintro (h2 | rfl)
      · exact h2
      · exact h
  · unfold hasKey
    simp only [List.any_append, Bool.or_eq_true, List.any_cons, List.any_nil,
      Bool.or_false, decide_eq_true_eq]
    constructor
    · rintro (h | h)
      · exact Or.inl h
      · exact Or.inr h.symm
    · rintro (h | h)
      · exact Or.inl h
      · exact Or.inr h.symm

theorem hasKey_addSegment (st : GState) (seg : Segment) (k : Key) :
    hasKey (addSegment st seg).graph k = true ↔
      hasKey st.graph k = true ∨ k = pointKey seg.start ∨ k = pointKey seg.endPt := by
  show hasKey (addNeighbor (addNeighbor _ _ _) _ _) k = true ↔ _
  rw [hasKey_addNeighbor, hasKey_addNeighbor, hasKey_registerKey_iff,
    hasKey_registerKey_iff]
  tauto

theorem hasKey_buildGraph (segs : List Segment) (k : Key) :
    hasKey (buildGraph segs).graph k = true ↔
      ∃ s ∈ segs, pointKey s.start = k ∨ pointKey s.endPt = k := by
  unfold buildGraph
  have h : ∀ (st : GState),
      hasKey (segs.foldl addSegment st).graph k = true ↔
        hasKey st.graph k = true ∨
        ∃ s ∈ segs, pointKey s.start = k ∨ pointKey s.endPt = k := by
    induction segs with
    | nil => intro st; simp
    | cons s rest ih =>
        intro st
        simp only [List.foldl_cons]
        rw [ih, hasKey_addSegment]
        simp only [List.mem_cons]
        constructor
        · rintro ((h | h | h) | ⟨t, ht, h⟩)
          · exact Or.inl h
          · exact Or.inr ⟨s, Or.inl rfl, Or.inl h.symm⟩
          · exact Or.inr ⟨s, Or.inl rfl, Or.inr h.symm⟩
          · exact Or.inr ⟨t, Or.inr ht, h⟩
        · rintro (h | ⟨t, (rfl | ht), h⟩)
          · exact Or.inl (Or.inl h)
          · rcases h with h | h
            · exact Or.inl (Or.inr (Or.inl h.symm))
            · exact Or.inl (Or.inr (Or.inr h.symm))
          · exact Or.inr ⟨t, ht, h⟩
  rw [h ⟨[], []⟩]
  simp [hasKey]

/-! ### Avoidance and singleton traversal lemmas -/

theorem dfsLoop_avoids {g : List (Key × List Key)} {k : Key}
    (hadj : ∀ m, m ≠ k → k ∉ lookupAdj g m) :
    ∀ (fuel : ℕ) (stack visited comp : List Key), k ∉ stack → k ∉ visited →
      k ∉ (dfsLoop g fuel stack visited comp).1 := by
  intro fuel
  induction fuel with
  | zero => intro stack visited comp hs hv; simpa [dfsLoop] using hv
  | succ f ih =>
      intro stack visited comp hs hv
      cases stack with
      | nil => simpa [dfsLoop] using hv
      | cons current rest =>
          have hcur : current ≠ k := fun hc => hs (hc ▸ List.mem_cons_self _ _)
          by_cases hvis : current ∈ visited
          · have heq : dfsLoop g (f + 1) (current :: rest) visited comp =
                dfsLoop g f rest visited comp := by
              simp [dfsLoop, hvis]
            rw [heq]
            exact ih rest visited comp (fun hc => hs (List.mem_cons_of_mem _ hc)) hv
          · have heq : dfsLoop g (f + 1) (current :: rest) visited comp =
                dfsLoop g f
                  (((lookupAdj g current).filter
                    (fun nb => decide (nb ∉ current :: visited))).reverse ++ rest)
                  (current :: visited) (comp ++ [current]) := by
              simp [dfsLoop, hvis]
            rw [heq]
            apply ih
            · intro hc
              rcases List.mem_append.mp hc with h1 | h2
              · have h3 : k ∈ (lookupAdj g current).filter
                    (fun nb => decide (nb ∉ current :: visited)) :=
                  List.mem_reverse.mp h1
                exact hadj current hcur (List.mem_filter.mp h3).1
              · exact hs (List.mem_cons_of_mem _ h2)
            · intro hc
              rcases List.mem_cons.mp hc with h1 | h2
              · exact hcur h1.symm
              · exact hv h2

theorem dfsLoop_singleton {g : List (Key × List Key)} {k : Key}
    {visited : List Key} (hadj : ∀ nb ∈ lookupAdj g k, nb = k)
    (hv : k ∉ visited) :
    dfsLoop g (fuelOf g) [k] visited [] = (k :: visited, [k]) := by
  show dfsLoop g ((g.length + (g.map (fun e => e.2.length)).sum) + 1) [k] visited []
    = (k :: visited, [k])
  have heq : dfsLoop g ((g.length + (g.map (fun e => e.2.length)).sum) + 1)
      [k] visited [] =
    dfsLoop g (g.length + (g.map (fun e => e.2.length)).sum)
      (((lookupAdj g k).filter
        (fun nb => decide (nb ∉ k :: visited))).reverse ++ [])
      (k :: visited) ([] ++ [k]) := by
    simp [dfsLoop, hv]
  rw [heq]
  have hnil : (lookupAdj g k).filter (fun nb => decide (nb ∉ k :: visited)) = [] := by
    rw [List.filter_eq_nil_iff]
    intro a ha
    have h2 := hadj a ha
    subst h2
    simp
  rw [hnil]
  simp [dfsLoop_empty_stack]

theorem compStep_comps_mono (g : List (Key × List Key))
    (acc : List Key × List (List Key)) (e : Key × List Key) {c : List Key}
    (h : c ∈ acc.2) : c ∈ (compStep g acc e).2 := by
  unfold compStep
  split_ifs with he
  · exact h
  · exact List.mem_append_left _ h

theorem foldl_compStep_comps_mono (g : List (Key × List Key))
    (entries : List (Key × List Key)) :
    ∀ (acc : List Key × List (List Key)) (c : List Key),
      c ∈ acc.2 → c ∈ (entries.foldl (compStep g) acc).2 := by
  induction entries with
  | nil => intro acc c h; exact h
  | cons e rest ih =>
      intro acc c h
      simp only [List.foldl_cons]
      exact ih _ c (compStep_comps_mono g acc e h)

theorem singleton_component_mem {g : List (Key × List Key)} {k : Key}
    (hk : k ∈ g.map Prod.fst)
    (hadj_self : ∀ nb ∈ lookupAdj g k, nb = k)
    (hadj_other : ∀ m, m ≠ k → k ∉ lookupAdj g m) :
    [k] ∈ componentsOf g := by
  unfold componentsOf
  suffices h : ∀ (entries : List (Key × List Key)) (acc : List Key × List (List Key)),
      (∃ e ∈ entries, e.1 = k) → k ∉ acc.1 →
      [k] ∈ (entries.foldl (compStep g) acc).2 by
    apply h g ([], [])
    · rcases List.mem_map.mp hk with ⟨e, he, hek⟩
      exact ⟨e, he, hek⟩
    · simp
  intro entries
  induction entries with
  | nil =>
      rintro acc ⟨e, he, _⟩ _
      simp at he
  | cons e rest ih =>
      rintro acc ⟨f, hf, hfk⟩ hkacc
      simp only [List.foldl_cons]
      by_cases hek : e.1 = k
      · have hstep : compStep g acc e = ((k :: acc.1), acc.2 ++ [[k]]) := by
          unfold compStep
          rw [if_neg (hek ▸ hkacc), hek, dfsLoop_singleton hadj_self hkacc]
        rw [hstep]
        exact foldl_compStep_comps_mono g rest _ [k] (List.mem_append_right _ (by simp))
      · apply ih
        · rcases List.mem_cons.mp hf with rfl | hf2
          · exact absurd hfk hek
          · exact ⟨f, hf2, hfk⟩
        · show k ∉ (compStep g acc e).1
          unfold compStep
          split_ifs with he2
          · exact hkacc
          · apply dfsLoop_avoids hadj_other
            · intro hc
              exact hek (List.mem_singleton.mp hc).symm
            · exact hkacc

theorem compContribution_singleton (g : List (Key × List Key))
    (pm : List (Key × Pt)) (k : Key) : compContribution g pm [k] = (2, 0) := by
  unfold compContribution
  rw [if_neg]
  rintro ⟨_, h3⟩
  simp at h3

/-! ### Claim C10 -/

/-- C10: an ARC entity whose projected start and end points snap to the
same key, when that key is shared with no other segment of the drawing,
forms its own singleton component which the loop detector classifies as
open: the engine contributes pierceCount 2 and area 0 for it, never the
area of the circle the arc traces. -/
theorem c10_degenerate_arc (T : Trig) (es1 es2 : List Entity) (c : Pt)
    (radius a1 a2 : ℚ)
    (hk : pointKey (arcPoint T c radius a1) = pointKey (arcPoint T c radius a2))
    (hsep : ∀ s ∈ (normalize T (es1 ++ es2)).segments,
      pointKey s.start ≠ pointKey (arcPoint T c radius a1) ∧
      pointKey s.endPt ≠ pointKey (arcPoint T c radius a1)) :
    [pointKey (arcPoint T c radius a1)] ∈
        componentsOf (buildGraph
          (normalize T (es1 ++ Entity.arc c radius a1 a2 :: es2)).segments).graph ∧
    compContribution
        (buildGraph
          (normalize T (es1 ++ Entity.arc c radius a1 a2 :: es2)).segments).graph
        (buildGraph
          (normalize T (es1 ++ Entity.arc c radius a1 a2 :: es2)).segments).pointsMap
        [pointKey (arcPoint T c radius a1)] = (2, 0) := by
  have hsegs : (normalize T (es1 ++ Entity.arc c radius a1 a2 :: es2)).segments =
      (es1.map (entitySegs T)).flatten ++
        (⟨arcPoint T c radius a1, arcPoint T c radius a2⟩ ::
          (es2.map (entitySegs T)).flatten) := by
    rw [normalize_segments]
    simp [entitySegs]
  have hsegs2 : (normalize T (es1 ++ es2)).segments =
      (es1.map (entitySegs T)).flatten ++ (es2.map (entitySegs T)).flatten := by
    rw [normalize_segments]
    simp
  have hother : ∀ s, s ∈ (es1.map (entitySegs T)).flatten ∨
      s ∈ (es2.map (entitySegs T)).flatten →
      pointKey s.start ≠ pointKey (arcPoint T c radius a1) ∧
      pointKey s.endPt ≠ pointKey (arcPoint T c radius a1) := by
    intro s hs
    apply hsep
    rw [hsegs2]
    exact List.mem_append.mpr hs
  constructor
  · apply singleton_component_mem
    · rw [← hasKey_iff, hasKey_buildGraph]
      refine ⟨⟨arcPoint T c radius a1, arcPoint T c radius a2⟩, ?_, Or.inl rfl⟩
      rw [hsegs]
      exact List.mem_append_right _ (List.mem_cons_self _ _)
    · intro nb hnb
      rw [mem_lookupAdj_buildGraph, hsegs] at hnb
      obtain ⟨s, hs, hor⟩ := hnb
      rcases List.mem_append.mp hs with hs1 | hs2
      · rcases hor with ⟨h1, _⟩ | ⟨h1, _⟩
        · exact absurd h1.symm (hother s (Or.inl hs1)).1
        · exact absurd h1.symm (hother s (Or.inl hs1)).2
      · rcases List.mem_cons.mp hs2 with rfl | hs3
        · rcases hor with ⟨_, h2⟩ | ⟨_, h2⟩
          · exact h2.trans hk.symm
          · exact h2
        · rcases hor with ⟨h1, _⟩ | ⟨h1, _⟩
          · exact absurd h1.symm (hother s (Or.inr hs3)).1
          · exact absurd h1.symm (hother s (Or.inr hs3)).2
    · intro m hm hc
      rw [mem_lookupAdj_buildGraph, hsegs] at hc
      obtain ⟨s, hs, hor⟩ := hc
      rcases List.mem_append.mp hs with hs1 | hs2
      · rcases hor with ⟨_, h2⟩ | ⟨_, h2⟩
        · exact (hother s (Or.inl hs1)).2 h2.symm
        · exact (hother s (Or.inl hs1)).1 h2.symm
      · rcases List.mem_cons.mp hs2 with rfl | hs3
        · rcases hor with ⟨h1, _⟩ | ⟨h1, _⟩
          · exact hm h1
          · exact hm (h1.trans hk.symm)
        · rcases hor with ⟨_, h2⟩ | ⟨_, h2⟩
          · exact (hother s (Or.inr hs3)).2 h2.symm
          · exact (hother s (Or.inr hs3)).1 h2.symm
  · exact compContribution_singleton _ _ _

/-- Closed instance of C10: a single full-turn arc with equal start and
end angles, alone in the drawing, yields the singleton component with
contribution (2, 0). -/
theorem c10_degenerate_arc_witness :
    [pointKey (arcPoint T0 ⟨0, 0⟩ 1 0)] ∈
        componentsOf (buildGraph
          (normalize T0 ([] ++ Entity.arc ⟨0, 0⟩ 1 0 0 :: [])).segments).graph ∧
    compContribution
        (buildGraph (normalize T0 ([] ++ Entity.arc ⟨0, 0⟩ 1 0 0 :: [])).segments).graph
        (buildGraph (normalize T0 ([] ++ Entity.arc ⟨0, 0⟩ 1 0 0 :: [])).segments).pointsMap
        [pointKey (arcPoint T0 ⟨0, 0⟩ 1 0)] = (2, 0) :=
  c10_degenerate_arc T0 [] [] ⟨0, 0⟩ 1 0 0 rfl
    (by intro s hs; simp [normalize, normStep] at hs)


/-! ### Claim C3 -/

/-- C3: a drawing with one circle of radius r, one explicitly closed
3-vertex polyline, and four line segments forming a separate closed unit
square reports pierceCount 3 and area pi * r^2 plus the shoelace area of
the triangle plus 1. -/
theorem c3_mixed_drawing (T : Trig) (c : Pt) (r : ℚ) (t1 t2 t3 : Pt) :
    (uploadDXF T [Entity.circle c r,
        Entity.lwpolyline [t1, t2, t3] true false,
        Entity.line ⟨0, 0⟩ ⟨1, 0⟩, Entity.line ⟨1, 0⟩ ⟨1, 1⟩,
        Entity.line ⟨1, 1⟩ ⟨0, 1⟩,
        Entity.line ⟨0, 1⟩ ⟨0, 0⟩]).pierceCount = 3 ∧
    realArea (uploadDXF T [Entity.circle c r,
        Entity.lwpolyline [t1, t2, t3] true false,
        Entity.line ⟨0, 0⟩ ⟨1, 0⟩, Entity.line ⟨1, 0⟩ ⟨1, 1⟩,
        Entity.line ⟨1, 1⟩ ⟨0, 1⟩, Entity.line ⟨0, 1⟩ ⟨0, 0⟩]) =
      Real.pi * r ^ 2 + (calculateArea [t1, t2, t3] : ℝ) + 1 := by
  have hnorm : normalize T [Entity.circle c r,
      Entity.lwpolyline [t1, t2, t3] true false,
      Entity.line ⟨0, 0⟩ ⟨1, 0⟩, Entity.line ⟨1, 0⟩ ⟨1, 1⟩,
      Entity.line ⟨1, 1⟩ ⟨0, 1⟩, Entity.line ⟨0, 1⟩ ⟨0, 0⟩] =
      ⟨2, calculateArea [t1, t2, t3], r ^ 2, sqSegs⟩ := by
    simp [normalize, normStep, sqSegs]
  have hup : uploadDXF T [Entity.circle c r,
      Entity.lwpolyline [t1, t2, t3] true false,
      Entity.line ⟨0, 0⟩ ⟨1, 0⟩, Entity.line ⟨1, 0⟩ ⟨1, 1⟩,
      Entity.line ⟨1, 1⟩ ⟨0, 1⟩, Entity.line ⟨0, 1⟩ ⟨0, 0⟩] =
      ⟨2 + (groupedOf (buildGraph sqSegs)).1,
        (calculateArea [t1, t2, t3] + (groupedOf (buildGraph sqSegs)).2) * 1 ^ 2,
        r ^ 2 * 1 ^ 2⟩ := by
    rw [uploadDXF, hnorm]
  have hg : groupedOf (buildGraph sqSegs) = (1, 1) := by
    with_unfolding_all decide
  rw [hup, hg]
  constructor
  · rfl
  · unfold realArea
    push_cast
    ring


/-! ### Angle comparator lemmas -/

theorem toC_im (u : Pt) : (toC u).im = (u.y : ℝ) := rfl

theorem toC_re (u : Pt) : (toC u).re = (u.x : ℝ) := rfl

theorem toC_ne_zero_of_y_ne {u : Pt} (h : u.y ≠ 0) : toC u ≠ 0 := by
  intro hc
  apply h
  have h2 : (toC u).im = 0 := by rw [hc, Complex.zero_im]
  rw [toC_im] at h2
  exact_mod_cast h2

theorem toC_ne_zero_of_x_neg {u : Pt} (h : u.x < 0) : toC u ≠ 0 := by
  intro hc
  have h2 : (toC u).re = 0 := by rw [hc, Complex.zero_re]
  rw [toC_re] at h2
  have h3 : u.x = 0 := by exact_mod_cast h2
  rw [h3] at h
  exact lt_irrefl 0 h

theorem arg_neg_of_y_neg {u : Pt} (h : u.y < 0) : Complex.arg (toC u) < 0 := by
  rw [Complex.arg_neg_iff, toC_im]
  exact_mod_cast h

theorem arg_zero_of_axis {u : Pt} (h1 : u.y = 0) (h2 : 0 ≤ u.x) :
    Complex.arg (toC u) = 0 := by
  rw [Complex.arg_eq_zero_iff, toC_im, toC_re]
  exact ⟨by exact_mod_cast h2, by exact_mod_cast h1⟩

theorem arg_pos_of_y_pos {u : Pt} (h : 0 < u.y) : 0 < Complex.arg (toC u) := by
  have h1 : 0 ≤ Complex.arg (toC u) := by
    rw [Complex.arg_nonneg_iff, toC_im]
    exact_mod_cast le_of_lt h
  refine h1.lt_of_ne (Ne.symm ?_)
  intro hc
  have h2 := (Complex.arg_eq_zero_iff.mp hc).2
  rw [toC_im] at h2
  have h3 : u.y = 0 := by exact_mod_cast h2
  rw [h3] at h
  exact lt_irrefl 0 h

theorem arg_lt_pi_of_y_pos {u : Pt} (h : 0 < u.y) : Complex.arg (toC u) < Real.pi := by
  refine (Complex.arg_le_pi (toC u)).lt_of_ne ?_
  intro hc
  have h2 := (Complex.arg_eq_pi_iff.mp hc).2
  rw [toC_im] at h2
  have h3 : u.y = 0 := by exact_mod_cast h2
  rw [h3] at h
  exact lt_irrefl 0 h

theorem arg_pi_of_neg_axis {u : Pt} (h1 : u.y = 0) (h2 : u.x < 0) :
    Complex.arg (toC u) = Real.pi := by
  rw [Complex.arg_eq_pi_iff, toC_im, toC_re]
  exact ⟨by exact_mod_cast h2, by exact_mod_cast h1⟩

theorem sin_arg_sub (u v : Pt) (hu : toC u ≠ 0) (hv : toC v ≠ 0) :
    Real.sin (Complex.arg (toC v) - Complex.arg (toC u)) =
      (cross u v : ℝ) / (Complex.abs (toC u) * Complex.abs (toC v)) := by
  rw [Real.sin_sub, Complex.sin_arg, Complex.sin_arg, Complex.cos_arg hu,
    Complex.cos_arg hv, toC_im, toC_im, toC_re, toC_re]
  have hau : Complex.abs (toC u) ≠ 0 := Complex.abs.ne_zero hu
  have hav : Complex.abs (toC v) ≠ 0 := Complex.abs.ne_zero hv
  unfold cross
  field_simp
  ring

theorem arg_le_iff_cross (u v : Pt) (hu : toC u ≠ 0) (hv : toC v ≠ 0)
    (hd : |Complex.arg (toC v) - Complex.arg (toC u)| < Real.pi) :
    (Complex.arg (toC u) ≤ Complex.arg (toC v) ↔ 0 ≤ cross u v) := by
  have habs : 0 < Complex.abs (toC u) * Complex.abs (toC v) :=
    mul_pos (Complex.abs.pos hu) (Complex.abs.pos hv)
  constructor
  · intro h
    have hs : 0 ≤ Real.sin (Complex.arg (toC v) - Complex.arg (toC u)) :=
      Real.sin_nonneg_of_nonneg_of_le_pi (by linarith) (le_of_lt (abs_lt.mp hd).2)
    rw [sin_arg_sub u v hu hv] at hs
    have hcr : (0 : ℝ) ≤ (cross u v : ℝ) := by
      by_contra hneg
      push_neg at hneg
      have h2 : (cross u v : ℝ) / (Complex.abs (toC u) * Complex.abs (toC v)) < 0 :=
        div_neg_of_neg_of_pos hneg habs
      linarith
    exact_mod_cast hcr
  · intro h
    by_contra hlt
    push_neg at hlt
    have hd2 : Complex.arg (toC v) - Complex.arg (toC u) < 0 := by linarith
    have hs : Real.sin (Complex.arg (toC v) - Complex.arg (toC u)) < 0 :=
      Real.sin_neg_of_neg_of_neg_pi_lt hd2 (abs_lt.mp hd).1
    rw [sin_arg_sub u v hu hv] at hs
    have hcr : (0 : ℝ) ≤ (cross u v : ℝ) := by exact_mod_cast h
    have h2 : 0 ≤ (cross u v : ℝ) / (Complex.abs (toC u) * Complex.abs (toC v)) :=
      div_nonneg hcr (le_of_lt habs)
    linarith

theorem classOf_cases (u : Pt) :
    (classOf u = 0 ∧ u.y < 0) ∨ (classOf u = 1 ∧ u.y = 0 ∧ 0 ≤ u.x) ∨
    (classOf u = 2 ∧ 0 < u.y) ∨ (classOf u = 3 ∧ u.y = 0 ∧ u.x < 0) := by
  unfold classOf
  rcases lt_trichotomy u.y 0 with h | h | h
  · left
    exact ⟨if_pos h, h⟩
  · by_cases hx : 0 ≤ u.x
    · right; left
      refine ⟨?_, h, hx⟩
      rw [if_neg (by rw [h]; exact lt_irrefl 0), if_pos ⟨h, hx⟩]
    · right; right; right
      refine ⟨?_, h, lt_of_not_ge hx⟩
      rw [if_neg (by rw [h]; exact lt_irrefl 0), if_neg (fun hc => hx hc.2),
        if_neg (by rw [h]; exact lt_irrefl 0)]
  · right; right; left
    refine ⟨?_, h⟩
    rw [if_neg (by linarith), if_neg (fun hc => absurd hc.1 (by linarith)), if_pos h]

theorem angLe_iff_arg (u v : Pt) :
    angLe u v = true ↔ Complex.arg (toC u) ≤ Complex.arg (toC v) := by
  unfold angLe
  rcases classOf_cases u with ⟨hu, hyu⟩ | ⟨hu, hyu, hxu⟩ | ⟨hu, hyu⟩ | ⟨hu, hyu, hxu⟩ <;>
    rcases classOf_cases v with ⟨hv, hyv⟩ | ⟨hv, hyv, hxv⟩ | ⟨hv, hyv⟩ | ⟨hv, hyv, hxv⟩ <;>
    rw [hu, hv]
  · -- class 0, 0
    rw [if_pos rfl, decide_eq_true_eq]
    have hu0 := toC_ne_zero_of_y_ne (ne_of_lt hyu)
    have hv0 := toC_ne_zero_of_y_ne (ne_of_lt hyv)
    have hau1 := arg_neg_of_y_neg hyu
    have hav1 := arg_neg_of_y_neg hyv
    have hau2 := Complex.neg_pi_lt_arg (toC u)
    have hav2 := Complex.neg_pi_lt_arg (toC v)
    exact (arg_le_iff_cross u v hu0 hv0 (abs_lt.mpr ⟨by linarith, by linarith⟩)).symm
  · -- class 0, 1
    exact iff_of_true (by norm_num)
      (le_of_lt ((arg_neg_of_y_neg hyu).trans_le (le_of_eq (arg_zero_of_axis hyv hxv).symm)))
  · -- class 0, 2
    exact iff_of_true (by norm_num)
      (le_of_lt ((arg_neg_of_y_neg hyu).trans (arg_pos_of_y_pos hyv)))
  · -- class 0, 3
    exact iff_of_true (by norm_num)
      (le_of_lt ((arg_neg_of_y_neg hyu).trans
        ((arg_pi_of_neg_axis hyv hxv).symm ▸ Real.pi_pos)))
  · -- class 1, 0
    exact iff_of_false (by norm_num)
      (not_le.mpr ((arg_neg_of_y_neg hyv).trans_le
        (le_of_eq (arg_zero_of_axis hyu hxu).symm)))
  · -- class 1, 1
    rw [if_pos rfl, decide_eq_true_eq, arg_zero_of_axis hyu hxu, arg_zero_of_axis hyv hxv]
    simp [cross, hyu, hyv]
  · -- class 1, 2
    exact iff_of_true (by norm_num)
      (le_of_lt ((arg_zero_of_axis hyu hxu).symm ▸ arg_pos_of_y_pos hyv))
  · -- class 1, 3
    exact iff_of_true (by norm_num)
      (le_of_lt (by rw [arg_zero_of_axis hyu hxu, arg_pi_of_neg_axis hyv hxv]
                    exact Real.pi_pos))
  · -- class 2, 0
    exact iff_of_false (by norm_num)
      (not_le.mpr ((arg_neg_of_y_neg hyv).trans (arg_pos_of_y_pos hyu)))
  · -- class 2, 1
    exact iff_of_false (by norm_num)
      (not_le.mpr ((arg_zero_of_axis hyv hxv).symm ▸ arg_pos_of_y_pos hyu))
  · -- class 2, 2
    rw [if_pos rfl, decide_eq_true_eq]
    have hu0 := toC_ne_zero_of_y_ne (ne_of_gt hyu)
    have hv0 := toC_ne_zero_of_y_ne (ne_of_gt hyv)
    have hau1 := arg_pos_of_y_pos hyu
    have hav1 := arg_pos_of_y_pos hyv
    have hau2 := arg_lt_pi_of_y_pos hyu
    have hav2 := arg_lt_pi_of_y_pos hyv
    exact (arg_le_iff_cross u v hu0 hv0 (abs_lt.mpr ⟨by linarith, by linarith⟩)).symm
  · -- class 2, 3
    exact iff_of_true (by norm_num)
      (le_of_lt ((arg_pi_of_neg_axis hyv hxv).symm ▸ arg_lt_pi_of_y_pos hyu))
  · -- class 3, 0
    exact iff_of_false (by norm_num)
      (not_le.mpr ((arg_neg_of_y_neg hyv).trans
        ((arg_pi_of_neg_axis hyu hxu).symm ▸ Real.pi_pos)))
  · -- class 3, 1
    exact iff_of_false (by norm_num)
      (not_le.mpr (by rw [arg_zero_of_axis hyv hxv, arg_pi_of_neg_axis hyu hxu]
                      exact Real.pi_pos))
  · -- class 3, 2
    exact iff_of_false (by norm_num)
      (not_le.mpr ((arg_pi_of_neg_axis hyu hxu).symm ▸ arg_lt_pi_of_y_pos hyv))
  · -- class 3, 3
    rw [if_pos rfl, decide_eq_true_eq, arg_pi_of_neg_axis hyu hxu,
      arg_pi_of_neg_axis hyv hxv]
    simp [cross, hyu, hyv]


theorem angLeAt_total (c : Pt) : ∀ p q : Pt, angLeAt c p q ∨ angLeAt c q p := by
  intro p q
  unfold angLeAt
  rcases le_total (Complex.arg (toC (psub p c))) (Complex.arg (toC (psub q c))) with h | h
  · exact Or.inl ((angLe_iff_arg _ _).mpr h)
  · exact Or.inr ((angLe_iff_arg _ _).mpr h)

theorem angLeAt_trans (c : Pt) : ∀ p q s : Pt,
    angLeAt c p q → angLeAt c q s → angLeAt c p s := by
  intro p q s h1 h2
  unfold angLeAt at *
  exact (angLe_iff_arg _ _).mpr
    (le_trans ((angLe_iff_arg _ _).mp h1) ((angLe_iff_arg _ _).mp h2))

theorem angLeAt_imp_atan2Le (c p q : Pt) (h : angLeAt c p q) : atan2Le c p q :=
  (angLe_iff_arg (psub p c) (psub q c)).mp h

/-! ### Claim C1 -/

/-- C1: for a component of the endpoint graph in which every node has
exactly 2 adjacent nodes and which has at least 3 nodes, the loop detector
contributes pierceCount 1 and the shoelace area of the component points
sorted by the angle comparator, a list that is a permutation of the
component points and is sorted ascending by the two-argument arctangent
around their centroid; every other component contributes pierceCount 2 and
area 0. -/
theorem c1_loop_detector (segs : List Segment) (comp : List Key)
    (_hmem : comp ∈ componentsOf (buildGraph segs).graph) :
    ((comp.all (fun k =>
        decide ((lookupAdj (buildGraph segs).graph k).length = 2)) = true ∧
      3 ≤ comp.length) →
      compContribution (buildGraph segs).graph (buildGraph segs).pointsMap comp =
          (1, calculateArea (List.insertionSort
            (angLeAt (centroidOf (comp.map (lookupPt (buildGraph segs).pointsMap))))
            (comp.map (lookupPt (buildGraph segs).pointsMap)))) ∧
        (List.insertionSort
            (angLeAt (centroidOf (comp.map (lookupPt (buildGraph segs).pointsMap))))
            (comp.map (lookupPt (buildGraph segs).pointsMap))).Perm
          (comp.map (lookupPt (buildGraph segs).pointsMap)) ∧
        List.Sorted
          (atan2Le (centroidOf (comp.map (lookupPt (buildGraph segs).pointsMap))))
          (List.insertionSort
            (angLeAt (centroidOf (comp.map (lookupPt (buildGraph segs).pointsMap))))
            (comp.map (lookupPt (buildGraph segs).pointsMap)))) ∧
    (¬(comp.all (fun k =>
        decide ((lookupAdj (buildGraph segs).graph k).length = 2)) = true ∧
      3 ≤ comp.length) →
      compContribution (buildGraph segs).graph (buildGraph segs).pointsMap comp
        = (2, 0)) := by
  constructor
  · rintro ⟨hall, hlen⟩
    refine ⟨?_, List.perm_insertionSort _ _, ?_⟩
    · unfold compContribution
      rw [if_pos ⟨hall, hlen⟩]
    · haveI ht : IsTotal Pt (angLeAt
          (centroidOf (comp.map (lookupPt (buildGraph segs).pointsMap)))) :=
        ⟨angLeAt_total _⟩
      haveI htr : IsTrans Pt (angLeAt
          (centroidOf (comp.map (lookupPt (buildGraph segs).pointsMap)))) :=
        ⟨angLeAt_trans _⟩
      exact (List.sorted_insertionSort _ _).imp
        (fun h => angLeAt_imp_atan2Le _ _ _ h)
  · intro hneg
    unfold compContribution
    rw [if_neg hneg]

/-- Closed instance of C1: the unit square component is classified closed
with area 1 and an angularly sorted vertex list. -/
theorem c1_loop_detector_witness :
    sqComp ∈ componentsOf (buildGraph sqSegs).graph ∧
    compContribution (buildGraph sqSegs).graph (buildGraph sqSegs).pointsMap sqComp =
        (1, calculateArea (List.insertionSort
          (angLeAt (centroidOf (sqComp.map (lookupPt (buildGraph sqSegs).pointsMap))))
          (sqComp.map (lookupPt (buildGraph sqSegs).pointsMap)))) ∧
    List.Sorted
      (atan2Le (centroidOf (sqComp.map (lookupPt (buildGraph sqSegs).pointsMap))))
      (List.insertionSort
        (angLeAt (centroidOf (sqComp.map (lookupPt (buildGraph sqSegs).pointsMap))))
        (sqComp.map (lookupPt (buildGraph sqSegs).pointsMap))) := by
  have h := c1_loop_detector sqSegs sqComp (by with_unfolding_all decide)
  have h2 := h.1 ⟨by with_unfolding_all decide, by with_unfolding_all decide⟩
  exact ⟨by with_unfolding_all decide, h2.1, h2.2.2⟩

end DxfSilly
